import Mathlib

/-!
Verification of the token-budget batching / chunking / merging core of the
`subspell` repository (files `src/subspell/utils.py` and
`src/subspell/spellchecker.py`), as a shallow embedding in Lean 4.

Python machine model used throughout:
* Python `str` is modelled by Lean `String`; string slicing, `str.join`,
  `str.split`, `str.endswith`, `str.strip` are re-implemented over the
  character list (`String.data`) with Python semantics, by structural
  recursion so that all definitions evaluate inside the kernel.
* Python `int` is modelled by `Int` where negative values are possible
  (`max_tokens`, `overlap`), and by `Nat` for counts that are provably
  non-negative (token counts, lengths, loop indices).
* The regular expressions used by the source (`\w+`, `[^\w\s]`, `\S+`,
  `(?<=[.!?])\s+`) are modelled by character-class state machines.  The
  character classes follow Python `re` on the ASCII range (Python's `\w`
  and `\s` are Unicode-aware; every string constant appearing in the
  program is ASCII except `§`, which is neither a word character nor
  whitespace both in Python and in this model).
-/

/-- Character class of Python's regex `\w` restricted to ASCII:
letters, digits and underscore. -/
def isWordChar (c : Char) : Bool :=
  c.isAlphanum || c == '_'

/-- Character class of Python's regex `\s` (and `str.isspace`) restricted to
ASCII: space, tab, newline, carriage return, vertical tab, form feed. -/
def isSpaceChar (c : Char) : Bool :=
  c == ' ' || c == '\t' || c == '\n' || c == '\r' || c == '\x0b' || c == '\x0c'

/-- Counts the maximal runs of word characters in a character list, i.e.
`len(re.findall(r"\w+", text))`.  The flag records whether the previous
character was a word character (we are inside a run). -/
def wordRunsGo : List Char → Bool → Nat
  | [], _ => 0
  | c :: rest, inRun =>
    if isWordChar c then (if inRun then 0 else 1) + wordRunsGo rest true
    else wordRunsGo rest false

/-- `count_tokens` from `utils.py` (lines 5-20): number of `\w+` word runs
plus number of characters that are neither word characters nor whitespace
(`[^\w\s]`). -/
def count_tokens (text : String) : Nat :=
  wordRunsGo text.data false +
    (text.data.filter (fun c => !isWordChar c && !isSpaceChar c)).length

/-- Python `sep.join(parts)` for a list of strings. -/
def pyJoin (sep : String) : List String → String
  | [] => ""
  | [x] => x
  | x :: y :: rest => x ++ sep ++ pyJoin sep (y :: rest)

/-- One item of the list handed to `batch_items`: a dictionary carrying (at
least) the text field selected by `text_key = "text"`.  Only the text field
is inspected by the batching code, so the dictionary is modelled by its
text field. -/
structure Item where
  text : String
deriving Repr, DecidableEq

/-- Token cost of the hard-coded separator used by `batch_items`
(`utils.py` line 175). -/
def separator_tokens : Nat := count_tokens "\n===SUBTITLE_SEPARATOR===\n"

/-- The `for item in items` loop of `batch_items` (`utils.py` lines
177-214), with the loop state (`batches` emitted so far are returned
incrementally; `current_batch`, `current_token_count`) passed explicitly.
Note: in the source, after `current_batch.append(item)` the test
`if current_batch:` is always true, so only that arm of the final
`if/else` is reachable; the embedding keeps the reachable behavior. -/
def batchItemsGo (max_tokens : Int) : List Item → List Item → Nat → List (List Item)
  | [], current_batch, _ =>
    if current_batch = [] then [] else [current_batch]
  | item :: rest, current_batch, current_token_count =>
    let item_tokens := count_tokens item.text
    if (item_tokens : Int) ≥ max_tokens then
      (if current_batch = [] then [] else [current_batch]) ++
        ([item] :: batchItemsGo max_tokens rest [] 0)
    else if current_batch ≠ [] ∧
        ((current_token_count + item_tokens + separator_tokens : Nat) : Int) > max_tokens then
      current_batch :: batchItemsGo max_tokens rest [item] item_tokens
    else
      batchItemsGo max_tokens rest (current_batch ++ [item])
        (current_token_count + item_tokens +
          (if 1 < (current_batch ++ [item]).length then separator_tokens else 0))

/-- `batch_items` from `utils.py` (lines 154-216). -/
def batch_items (items : List Item) (max_tokens : Int) : List (List Item) :=
  if items = [] then [] else batchItemsGo max_tokens items [] 0

/-- Flattening the batches produced by the loop recovers the pending open
batch followed by the unprocessed items. -/
theorem batchItemsGo_flatten (max_tokens : Int) (items : List Item) :
    ∀ (cur : List Item) (tok : Nat),
      (batchItemsGo max_tokens items cur tok).flatten = cur ++ items := by
  induction items with
  | nil =>
    intro cur tok
    by_cases h : cur = [] <;> simp [batchItemsGo, h]
  | cons item rest ih =>
    intro cur tok
    simp only [batchItemsGo]
    split
    · by_cases h : cur = [] <;> simp [h, ih]
    · split
      · simp [ih]
      · simp [ih]

/-- Every batch the loop emits, when every pending item is strictly under
the budget, either is a singleton or contains no item at or over the
budget; more precisely any emitted batch that contains an item whose
estimate reaches `max_tokens` is exactly that singleton. -/
theorem batchItemsGo_oversized (max_tokens : Int) (items : List Item) :
    ∀ (cur : List Item) (tok : Nat),
      (∀ it ∈ cur, (count_tokens it.text : Int) < max_tokens) →
      ∀ b ∈ batchItemsGo max_tokens items cur tok,
        ∀ it ∈ b, (count_tokens it.text : Int) ≥ max_tokens → b = [it] := by
  induction items with
  | nil =>
    intro cur tok hcur b hb it hit hge
    by_cases h : cur = []
    · simp [batchItemsGo, h] at hb
    · simp [batchItemsGo, h] at hb
      subst hb
      exact absurd (hcur it hit) (not_lt.mpr hge)
  | cons item rest ih =>
    intro cur tok hcur b hb it hit hge
    simp only [batchItemsGo] at hb
    split at hb
    · rw [List.mem_append] at hb
      rcases hb with hb | hb
      · by_cases h : cur = []
        · simp [h] at hb
        · simp [h] at hb
          subst hb
          exact absurd (hcur it hit) (not_lt.mpr hge)
      · rcases List.mem_cons.mp hb with hb | hb
        · subst hb
          rcases List.mem_singleton.mp hit with rfl
          rfl
        · exact ih [] 0 (by simp) b hb it hit hge
    · rename_i hbig
      split at hb
      · rcases List.mem_cons.mp hb with hb | hb
        · subst hb
          exact absurd (hcur it hit) (not_lt.mpr hge)
        · exact ih [item] (count_tokens item.text)
            (by simpa using lt_of_not_ge hbig) b hb it hit hge
      · refine ih (cur ++ [item]) _ ?_ b hb it hit hge
        intro x hx
        rcases List.mem_append.mp hx with hx | hx
        · exact hcur x hx
        · rcases List.mem_singleton.mp hx with rfl
          exact lt_of_not_ge hbig

/-- Combined token estimate of a batch: per-item estimates plus the
separator estimate once for each gap between consecutive items. -/
def batchWeight (b : List Item) : Nat :=
  (b.map (fun it => count_tokens it.text)).sum + (b.length - 1) * separator_tokens

theorem batchWeight_nil : batchWeight [] = 0 := by
  simp [batchWeight]

theorem batchWeight_singleton (it : Item) :
    batchWeight [it] = count_tokens it.text := by
  simp [batchWeight]

theorem batchWeight_append_singleton (b : List Item) (it : Item) :
    batchWeight (b ++ [it]) =
      batchWeight b + count_tokens it.text +
        (if 1 < (b ++ [it]).length then separator_tokens else 0) := by
  cases b with
  | nil => simp [batchWeight]
  | cons x xs =>
    have hlen : 1 < ((x :: xs) ++ [it]).length := by simp
    rw [if_pos hlen]
    simp only [batchWeight, List.map_append, List.map_cons, List.map_nil,
      List.sum_append, List.sum_cons, List.sum_nil, List.length_append,
      List.length_cons, List.length_nil]
    ring_nf
    have e1 : 1 + xs.length - 1 = xs.length := by omega
    have e2 : 2 + xs.length - 1 = 1 + xs.length := by omega
    rw [e1, e2]
    ring

/-- The running token total of the loop equals the batch weight of the open
batch, and every batch the loop emits is non-empty and, when it holds two
or more items, fits the budget. -/
theorem batchItemsGo_bounded (max_tokens : Int) (items : List Item) :
    ∀ (cur : List Item) (tok : Nat),
      tok = batchWeight cur →
      (cur = [] ∨ (batchWeight cur : Int) ≤ max_tokens) →
      ∀ b ∈ batchItemsGo max_tokens items cur tok,
        b ≠ [] ∧ (2 ≤ b.length → (batchWeight b : Int) ≤ max_tokens) := by
  induction items with
  | nil =>
    intro cur tok htok hcur b hb
    by_cases h : cur = []
    · simp [batchItemsGo, h] at hb
    · simp [batchItemsGo, h] at hb
      subst hb
      exact ⟨h, fun _ => hcur.resolve_left h⟩
  | cons item rest ih =>
    intro cur tok htok hcur b hb
    simp only [batchItemsGo] at hb
    split at hb
    · rw [List.mem_append] at hb
      rcases hb with hb | hb
      · by_cases h : cur = []
        · simp [h] at hb
        · simp [h] at hb
          subst hb
          exact ⟨h, fun _ => hcur.resolve_left h⟩
      · rcases List.mem_cons.mp hb with hb | hb
        · subst hb
          refine ⟨by simp, fun h2 => absurd h2 (by simp)⟩
        · exact ih [] 0 (by simp [batchWeight_nil]) (Or.inl rfl) b hb
    · rename_i hbig
      split at hb
      · rename_i hover
        rcases List.mem_cons.mp hb with hb | hb
        · subst hb
          refine ⟨hover.1, fun _ => ?_⟩
          rcases hcur with h | h
          · exact absurd h hover.1
          · exact h
        · refine ih [item] (count_tokens item.text)
            (by simp [batchWeight_singleton]) (Or.inr ?_) b hb
          rw [batchWeight_singleton]
          exact le_of_lt (lt_of_not_ge hbig)
      · rename_i hover
        refine ih (cur ++ [item]) _ ?_ (Or.inr ?_) b hb
        · rw [batchWeight_append_singleton, htok]
        · rw [batchWeight_append_singleton, ← htok]
          by_cases h : cur = []
          · subst h
            simp only [List.nil_append, List.length_cons, List.length_nil]
            rw [if_neg (by decide)]
            have : tok = 0 := by simp [htok, batchWeight_nil]
            subst this
            simpa using le_of_lt (lt_of_not_ge hbig)
          · have hlen : 1 < (cur ++ [item]).length := by
              cases cur with
              | nil => exact absurd rfl h
              | cons x xs => simp [List.length_append]
            rw [if_pos hlen]
            rcases not_and_or.mp hover with hc | hc
            · exact absurd h (by simpa using hc)
            · push_cast
              push_cast at hc
              linarith [not_lt.mp hc]

/-- C2: for every non-empty list of items and every max_tokens, the batches
returned by batch_items, flattened in order, equal the input item sequence
exactly: every input item appears in exactly one output batch, in its
original relative order across and within batches. -/
theorem batch_items_flatten_eq (items : List Item) (max_tokens : Int)
    (h : items ≠ []) : (batch_items items max_tokens).flatten = items := by
  rw [batch_items, if_neg h]
  simpa using batchItemsGo_flatten max_tokens items [] 0

theorem batch_items_flatten_eq_witness :
    [Item.mk "a", Item.mk "b"] ≠ ([] : List Item) ∧
      (batch_items [Item.mk "a", Item.mk "b"] 100).flatten =
        [Item.mk "a", Item.mk "b"] :=
  ⟨by decide, batch_items_flatten_eq [Item.mk "a", Item.mk "b"] 100 (by decide)⟩

/-- C3: every input item whose token estimate reaches max_tokens is placed
alone as a singleton batch: such an item appears as the batch [it], and any
batch containing it is exactly [it] (its content is never dropped, by C2's
flattening law). -/
theorem batch_items_oversized_singleton (items : List Item) (max_tokens : Int)
    (it : Item) (hmem : it ∈ items)
    (hbig : (count_tokens it.text : Int) ≥ max_tokens) :
    [it] ∈ batch_items items max_tokens ∧
      ∀ b ∈ batch_items items max_tokens, it ∈ b → b = [it] := by
  have hne : items ≠ [] := by
    intro h
    rw [h] at hmem
    exact absurd hmem (List.not_mem_nil it)
  have halone : ∀ b ∈ batch_items items max_tokens, it ∈ b → b = [it] := by
    intro b hb hitb
    rw [batch_items, if_neg hne] at hb
    exact batchItemsGo_oversized max_tokens items [] 0 (by simp) b hb it hitb hbig
  refine ⟨?_, halone⟩
  have : it ∈ (batch_items items max_tokens).flatten := by
    rw [batch_items_flatten_eq items max_tokens hne]
    exact hmem
  rcases List.mem_flatten.mp this with ⟨b, hb, hitb⟩
  have := halone b hb hitb
  rwa [this] at hb

theorem batch_items_oversized_singleton_witness :
    Item.mk "a b c" ∈ [Item.mk "x", Item.mk "a b c"] ∧
      ((count_tokens (Item.mk "a b c").text : Int) ≥ 2) ∧
      [Item.mk "a b c"] ∈ batch_items [Item.mk "x", Item.mk "a b c"] 2 :=
  ⟨by decide, by decide,
    (batch_items_oversized_singleton [Item.mk "x", Item.mk "a b c"] 2
      (Item.mk "a b c") (by decide) (by decide)).1⟩

/-- C4: every batch returned by batch_items is non-empty, and every batch
holding two or more items has a combined token estimate (sum of per-item
estimates plus the separator estimate for each gap between consecutive
items) within max_tokens; only a single-item batch may exceed the budget. -/
theorem batch_items_bounded (items : List Item) (max_tokens : Int)
    (b : List Item) (hb : b ∈ batch_items items max_tokens) :
    b ≠ [] ∧ (2 ≤ b.length → (batchWeight b : Int) ≤ max_tokens) := by
  by_cases hne : items = []
  · rw [batch_items, if_pos hne] at hb
    exact absurd hb (List.not_mem_nil b)
  · rw [batch_items, if_neg hne] at hb
    exact batchItemsGo_bounded max_tokens items [] 0
      (by simp [batchWeight_nil]) (Or.inl rfl) b hb

theorem batch_items_bounded_witness :
    [Item.mk "a", Item.mk "b"] ∈ batch_items [Item.mk "a", Item.mk "b"] 100 ∧
      [Item.mk "a", Item.mk "b"] ≠ [] ∧
      (2 ≤ [Item.mk "a", Item.mk "b"].length →
        (batchWeight [Item.mk "a", Item.mk "b"] : Int) ≤ 100) :=
  ⟨by decide,
    batch_items_bounded [Item.mk "a", Item.mk "b"] 100 [Item.mk "a", Item.mk "b"]
      (by decide)⟩

/-- Worker for `pySplit`: scans the character list; `cur` is the part being
accumulated, `skip` counts separator characters still to be discarded after
a match (the head separator character is consumed on match). -/
def pySplitGo (sep : List Char) : List Char → List Char → Nat → List String
  | [], cur, _ => [String.mk cur]
  | _ :: rest, cur, skip + 1 => pySplitGo sep rest cur skip
  | c :: rest, cur, 0 =>
    if sep ≠ [] ∧ sep.isPrefixOf (c :: rest) then
      String.mk cur :: pySplitGo sep rest [] (sep.length - 1)
    else
      pySplitGo sep rest (cur ++ [c]) 0

/-- Python `s.split(sep)` for a non-empty separator: non-overlapping,
leftmost-first occurrences of `sep` delimit the parts; `"".split(sep)`
is `[""]`, and a trailing separator yields a trailing empty part. -/
def pySplit (sep : String) (s : String) : List String :=
  pySplitGo sep.data s.data [] 0

/-- Python `s.endswith(t)`. -/
def pyEndsWith (s t : String) : Bool :=
  t.data.isSuffixOf s.data

/-- Python `s[:-k]` for `k ≥ 1`: all characters but the last `k`. -/
def pySliceToNeg (s : String) (k : Nat) : String :=
  String.mk (s.data.take (s.data.length - k))

/-- Python `l[start:]` with an arbitrary (possibly negative) `start`. -/
def pySliceFrom {α : Type} (l : List α) (start : Int) : List α :=
  let n : Int := l.length
  let first := if start < 0 then max 0 (n + start) else min n start
  l.drop first.toNat

/-- Python `s.strip()`: remove leading and trailing whitespace. -/
def pyStrip (s : String) : String :=
  String.mk (((s.data.dropWhile isSpaceChar).reverse.dropWhile isSpaceChar).reverse)

/-- Worker for `nonSpaceRuns`: accumulates the current maximal run of
non-whitespace characters. -/
def nonSpaceRunsGo : List Char → List Char → List (List Char)
  | [], cur => if cur = [] then [] else [cur]
  | c :: rest, cur =>
    if isSpaceChar c then
      (if cur = [] then [] else [cur]) ++ nonSpaceRunsGo rest []
    else
      nonSpaceRunsGo rest (cur ++ [c])

/-- `re.findall(r"\S+", text)`, which is also Python `text.split()` with no
argument: the maximal runs of non-whitespace characters, in order. -/
def nonSpaceRuns (s : String) : List String :=
  (nonSpaceRunsGo s.data []).map String.mk

/-- True when the accumulated sentence ends in `.`, `!` or `?` (the regex
lookbehind `(?<=[.!?])`). -/
def lastIsSentenceEnd (cur : List Char) : Bool :=
  match cur.getLast? with
  | some c => c == '.' || c == '!' || c == '?'
  | none => false

/-- Worker for `sentenceSplit`: models `re.split(r"(?<=[.!?])\s+", s)`.
A split happens at a whitespace character preceded by a sentence-ending
character; the whole greedy whitespace run is consumed (`justSplit` is true
while consuming it). -/
def sentenceSplitGo : List Char → List Char → Bool → List (List Char)
  | [], cur, _ => [cur]
  | c :: rest, cur, justSplit =>
    if isSpaceChar c then
      if justSplit then sentenceSplitGo rest cur true
      else if lastIsSentenceEnd cur then cur :: sentenceSplitGo rest [] true
      else sentenceSplitGo rest (cur ++ [c]) false
    else
      sentenceSplitGo rest (cur ++ [c]) false

/-- `re.split(r"(?<=[.!?])\s+", paragraph)` from `utils.py` line 49. -/
def sentenceSplit (s : String) : List String :=
  (sentenceSplitGo s.data [] false).map String.mk

/-- `get_overlap_text` from `utils.py` (lines 100-115): the last
`overlap_tokens` whitespace-delimited words of `text`, joined with single
spaces and followed by one space; the whole text when it has at most
`overlap_tokens` words. -/
def get_overlap_text (text : String) (overlap_tokens : Int) : String :=
  let words := nonSpaceRuns text
  if (words.length : Int) ≤ overlap_tokens then text
  else pyJoin " " (pySliceFrom words (-overlap_tokens)) ++ " "

/-- State of the accumulation loops of `chunk_text`: chunks already closed,
the open chunk and its running token total. -/
structure ChunkState where
  chunks : List String
  current_chunk : String
  current_tokens : Nat
deriving Repr, DecidableEq

/-- Body of the `for sentence in sentences` loop of `chunk_text`
(`utils.py` lines 50-64). -/
def addSentence (max_tokens : Int) (st : ChunkState) (sentence : String) : ChunkState :=
  let sentence_tokens := count_tokens sentence
  if ((st.current_tokens + sentence_tokens : Nat) : Int) > max_tokens then
    { chunks := st.chunks ++ (if st.current_chunk = "" then [] else [st.current_chunk]),
      current_chunk := sentence,
      current_tokens := sentence_tokens }
  else
    { st with
      current_chunk :=
        if st.current_chunk = "" then sentence else st.current_chunk ++ " " ++ sentence,
      current_tokens := st.current_tokens + sentence_tokens }

/-- Body of the `for paragraph in paragraphs` loop of `chunk_text`
(`utils.py` lines 44-77). -/
def addParagraph (max_tokens : Int) (st : ChunkState) (paragraph : String) : ChunkState :=
  let paragraph_tokens := count_tokens paragraph
  if (paragraph_tokens : Int) > max_tokens then
    (sentenceSplit paragraph).foldl (addSentence max_tokens) st
  else if ((st.current_tokens + paragraph_tokens : Nat) : Int) > max_tokens then
    { chunks := st.chunks ++ (if st.current_chunk = "" then [] else [st.current_chunk]),
      current_chunk := paragraph,
      current_tokens := paragraph_tokens }
  else
    { st with
      current_chunk :=
        if st.current_chunk = "" then paragraph
        else st.current_chunk ++ "\n\n" ++ paragraph,
      current_tokens := st.current_tokens + paragraph_tokens }

/-- The overlap-prepending pass of `chunk_text` (`utils.py` lines 84-95),
walking consecutive pairs: every chunk after the first is prefixed with the
overlap text of its predecessor. -/
def overlapGo (overlap : Int) : String → List String → List String
  | _, [] => []
  | prev, c :: cs => (get_overlap_text prev overlap ++ c) :: overlapGo overlap c cs

/-- `overlap_chunks` of `chunk_text`: first chunk kept, later chunks
prefixed with their predecessor's overlap text. -/
def overlapChunks (overlap : Int) : List String → List String
  | [] => []
  | c :: cs => c :: overlapGo overlap c cs

/-- `chunk_text` from `utils.py` (lines 23-97). -/
def chunk_text (text : String) (max_tokens : Int) (overlap : Int) : List String :=
  if (count_tokens text : Int) ≤ max_tokens then [text]
  else
    let paragraphs := pySplit "\n\n" text
    let st := paragraphs.foldl (addParagraph max_tokens) ⟨[], "", 0⟩
    let chunks := st.chunks ++ (if st.current_chunk = "" then [] else [st.current_chunk])
    if 1 < chunks.length ∧ 0 < overlap then overlapChunks overlap chunks
    else chunks

/-- C5: whenever the token estimate of the text is within max_tokens,
chunk_text returns exactly the one-element list holding the whole
unmodified text. -/
theorem chunk_text_single (text : String) (max_tokens overlap : Int)
    (h : (count_tokens text : Int) ≤ max_tokens) :
    chunk_text text max_tokens overlap = [text] := by
  rw [chunk_text, if_pos h]

theorem chunk_text_single_witness :
    ((count_tokens "Hello world." : Int) ≤ 10) ∧
      chunk_text "Hello world." 10 200 = ["Hello world."] :=
  ⟨by decide, chunk_text_single "Hello world." 10 200 (by decide)⟩

/-- C6 counterexample: with the non-positive budget max_tokens = 0 and the
non-empty text "Hi. Yo" (estimate 3 > 0), chunk_text does not return the
text unsplit: it splits at the sentence boundary and then prepends the
overlap, returning ["Hi.", "Hi.Yo"].  The code has no max_tokens <= 0 edge
case; its only short-circuit is the estimate(text) <= max_tokens guard. -/
theorem chunk_text_nonpositive_budget_counterexample :
    ((0 : Int) ≤ 0) ∧ chunk_text "Hi. Yo" 0 200 = ["Hi.", "Hi.Yo"] ∧
      chunk_text "Hi. Yo" 0 200 ≠ ["Hi. Yo"] := by
  refine ⟨by decide, by decide, by decide⟩

/-- C6 amended: the empty text is returned unsplit as [""] whenever the
budget is non-negative (its estimate 0 then satisfies the single guard of
chunk_text); a non-positive budget by itself does not make chunk_text
return [text] unsplit. -/
theorem chunk_text_empty_text (max_tokens overlap : Int)
    (h : 0 ≤ max_tokens) :
    chunk_text "" max_tokens overlap = [""] := by
  have h0 : (count_tokens "" : Int) = 0 := by decide
  rw [chunk_text, if_pos (by rw [h0]; exact h)]

theorem chunk_text_empty_text_witness :
    ((0 : Int) ≤ 5) ∧ chunk_text "" 5 200 = [""] :=
  ⟨by decide, chunk_text_empty_text 5 200 (by decide)⟩

/-- The `for i, (chunk, (start, end)) in enumerate(zip(...))` loop of
`merge_corrected_chunks` (`utils.py` lines 140-149): the first chunk
(i = 0) replaces the result; each later chunk is appended after dropping
the first `max(1, len(words) // 2)` whitespace-delimited words. -/
def mergeGo : Nat → List (String × Nat × Nat) → String → String
  | _, [], result => result
  | i, (chunk, _, _) :: rest, result =>
    if 0 < i then
      let words := nonSpaceRuns chunk
      let half_point := max 1 (words.length / 2)
      mergeGo (i + 1) rest (result ++ " " ++ pyJoin " " (words.drop half_point))
    else
      mergeGo (i + 1) rest chunk

/-- `merge_corrected_chunks` from `utils.py` (lines 118-151). -/
def merge_corrected_chunks (original_text : String) (corrected_chunks : List String)
    (chunk_boundaries : List (Nat × Nat)) : String :=
  if corrected_chunks.length = 1 then corrected_chunks.headD ""
  else mergeGo 0 (corrected_chunks.zip chunk_boundaries) ""

/-- The merge step exactly as claim C7 words it: split the chunk into
whitespace-delimited tokens, discard the first half of them rounded down
but keep at least one token, and append the rest prefixed by a single
space. -/
def mergeSpecC7 : List String → String
  | [] => ""
  | first :: rest =>
    rest.foldl
      (fun result chunk =>
        let words := nonSpaceRuns chunk
        result ++ " " ++ pyJoin " " (words.drop (min (words.length / 2) (words.length - 1))))
      first

/-- C7 counterexample: merging the two corrected chunks ["a", "b"] (with
matching boundaries) yields "a " — the single token of the second chunk is
discarded entirely because the code drops max(1, n // 2) tokens — whereas
the claim's minimum-one-token-kept reading would yield "a b". -/
theorem merge_corrected_chunks_counterexample :
    merge_corrected_chunks "ab" ["a", "b"] [(0, 1), (1, 2)] = "a " ∧
      mergeSpecC7 ["a", "b"] = "a b" ∧
      merge_corrected_chunks "ab" ["a", "b"] [(0, 1), (1, 2)] ≠
        mergeSpecC7 ["a", "b"] := by
  refine ⟨by decide, by decide, by decide⟩

/-- The merge step as the code actually behaves: at least one token is
always discarded — the first max(1, n / 2) of the n whitespace-delimited
tokens — and the remainder is appended prefixed by a single space. -/
def mergeStepAmended (result chunk : String) : String :=
  let words := nonSpaceRuns chunk
  result ++ " " ++ pyJoin " " (words.drop (max 1 (words.length / 2)))

/-- Amended C7 merge description: first chunk kept in full, each later
chunk paired with a boundary entry contributes its tokens after the first
max(1, n / 2) are discarded. -/
def mergeSpecC7Amended : List String → String
  | [] => ""
  | first :: rest => rest.foldl mergeStepAmended first

/-- Once past the first chunk, the enumerate loop is a fold of the amended
merge step over the remaining chunks. -/
theorem mergeGo_foldl (l : List (String × Nat × Nat)) :
    ∀ (res : String) (i : Nat), 1 ≤ i →
      mergeGo i l res = (l.map Prod.fst).foldl mergeStepAmended res := by
  induction l with
  | nil => intro res i hi; simp [mergeGo]
  | cons p rest ih =>
    intro res i hi
    obtain ⟨chunk, b1, b2⟩ := p
    rw [show mergeGo i ((chunk, b1, b2) :: rest) res =
        if 0 < i then
          mergeGo (i + 1) rest
            (res ++ " " ++
              pyJoin " " ((nonSpaceRuns chunk).drop (max 1 ((nonSpaceRuns chunk).length / 2))))
        else mergeGo (i + 1) rest chunk from rfl]
    rw [if_pos (show 0 < i by omega)]
    rw [ih _ (i + 1) (by omega)]
    simp [mergeStepAmended]

/-- C7 amended: for every call with two or more corrected chunks,
merge_corrected_chunks keeps the first chunk in full and, for each
subsequent chunk that is paired with a boundary entry (the code zips
chunks with boundaries), splits it into whitespace-delimited tokens,
discards the first max(1, n / 2) of them — so at least one token is always
discarded, and a one-token chunk contributes nothing — and appends the
remainder prefixed by a single space. -/
theorem merge_corrected_chunks_amended (original_text : String)
    (corrected_chunks : List String) (chunk_boundaries : List (Nat × Nat))
    (h2 : 2 ≤ corrected_chunks.length) :
    merge_corrected_chunks original_text corrected_chunks chunk_boundaries =
      mergeSpecC7Amended ((corrected_chunks.zip chunk_boundaries).map Prod.fst) := by
  rw [merge_corrected_chunks, if_neg (by omega)]
  cases corrected_chunks with
  | nil => simp at h2
  | cons c0 cs =>
    cases chunk_boundaries with
    | nil => simp [mergeGo, mergeSpecC7Amended]
    | cons b0 bs =>
      rw [show (c0 :: cs).zip (b0 :: bs) = (c0, b0) :: cs.zip bs from rfl]
      rw [show mergeGo 0 ((c0, b0.1, b0.2) :: cs.zip bs) "" =
          mergeGo 1 (cs.zip bs) c0 from rfl]
      rw [mergeGo_foldl (cs.zip bs) c0 1 (by omega)]
      rfl

theorem merge_corrected_chunks_amended_witness :
    2 ≤ (["a b", "c d"] : List String).length ∧
      merge_corrected_chunks "orig" ["a b", "c d"] [(0, 3), (3, 6)] =
        mergeSpecC7Amended (((["a b", "c d"] : List String).zip
          [((0 : Nat), (3 : Nat)), (3, 6)]).map Prod.fst) :=
  ⟨by decide,
    merge_corrected_chunks_amended "orig" ["a b", "c d"] [(0, 3), (3, 6)] (by decide)⟩

/-- Worker for `chunksOf`: accumulates the open slice until it holds
`bs` elements. -/
def chunksOfGo (bs : Nat) : List α → List α → List (List α)
  | [], cur => if cur.isEmpty then [] else [cur]
  | x :: xs, cur =>
    if cur.length + 1 = bs then (cur ++ [x]) :: chunksOfGo bs xs []
    else chunksOfGo bs xs (cur ++ [x])

/-- The fixed-size slicing `[l[i : i + bs] for i in range(0, len(l), bs)]`
used by both correct_subtitles and correct_subtitle_file when
batch_size > 0: consecutive slices of `bs` elements, the last one possibly
shorter.  (Python raises for step 0; the callers guard with
batch_size > 0.) -/
def chunksOf (bs : Nat) (l : List α) : List (List α) :=
  chunksOfGo bs l []

/-- The separator literal of `correct_subtitles` (`spellchecker.py`
line 81). -/
def separator_str : String := "§SEP§"

/-- Number of parameters of the definition of `batch_items`
(`utils.py` line 154-156): `items`, `max_tokens`, `text_key`. -/
def batch_items_param_count : Nat := 3

/-- Number of positional arguments `correct_subtitles` passes to
`batch_items` in its token-based branch (`spellchecker.py` lines 84-89):
the item list, `self.max_tokens_per_chunk`, `"text"`, `separator_str`. -/
def correct_subtitles_batch_items_arg_count : Nat := 4

/-- A Python positional call binds only when the argument count does not
exceed the parameter count (otherwise `TypeError` is raised). -/
def pyPositionalCallBinds (params args : Nat) : Bool :=
  args ≤ params

/-- The body of the `for batch in batches` loop of `correct_subtitles`
(`spellchecker.py` lines 106-120) for one non-empty batch: join the texts
with the separator, call the corrector, append a line break when the
result ends with the separator minus its last one or two characters, and
split on the separator. -/
def processBatch (correct : String → String) (batch : List String) : List String :=
  let combined_text := pyJoin separator_str batch
  let corrected_combined := correct combined_text
  let corrected_combined :=
    if pyEndsWith corrected_combined (pySliceToNeg separator_str 1)
        || pyEndsWith corrected_combined (pySliceToNeg separator_str 2) then
      corrected_combined ++ "\n"
    else corrected_combined
  pySplit separator_str corrected_combined

/-- `correct_subtitles` from `spellchecker.py` (lines 70-122), with the
provider call abstracted as `correct`.  In the token-based branch
(batch_size = 0) the source calls
`batch_items([{"text": s} for s in subtitles], self.max_tokens_per_chunk,
"text", separator_str)` — four positional arguments — while `batch_items`
as defined in `utils.py` accepts only three (`items`, `max_tokens`,
`text_key`), so Python raises a `TypeError` before any batching happens;
the embedding returns that error.  In the fixed-size branch the subtitles
are sliced into consecutive runs of `batch_size` and each run is processed
by `processBatch`. -/
def correct_subtitles (correct : String → String) (subtitles : List String)
    (batch_size : Nat) : Except String (List String) :=
  if batch_size = 0 then
    Except.error
      "TypeError: batch_items() takes from 2 to 3 positional arguments but 4 were given"
  else
    Except.ok
      ((chunksOf batch_size subtitles).foldl
        (fun corrected_subtitles batch =>
          if batch = [] then corrected_subtitles
          else corrected_subtitles ++ processBatch correct batch)
        [])

/-- C1: the token-based batching mode of correct_subtitles never performs
the batching-join-correct-split pipeline: the call it makes to batch_items
passes four positional arguments to a three-parameter function, which does
not bind in Python, so every call with batch_size = 0 raises a TypeError
instead of returning corrected subtitles. -/
theorem correct_subtitles_token_mode_type_error :
    pyPositionalCallBinds batch_items_param_count
        correct_subtitles_batch_items_arg_count = false ∧
      ∀ (correct : String → String) (subtitles : List String),
        correct_subtitles correct subtitles 0 =
          Except.error
            "TypeError: batch_items() takes from 2 to 3 positional arguments but 4 were given" := by
  refine ⟨by decide, fun correct subtitles => ?_⟩
  rw [correct_subtitles, if_pos rfl]

/-- C8 counterexample: "§S" is a non-empty proper prefix of the separator
"§SEP§", and the corrector output "x§S" ends with it, yet processBatch
appends no line break before splitting: the code only tests the two
prefixes separator_str[:-1] = "§SEP" and separator_str[:-2] = "§SE". -/
theorem processBatch_prefix_counterexample :
    ("§S" : String).data.isPrefixOf separator_str.data = true ∧
      ("§S" : String) ≠ "" ∧
      pyEndsWith "x§S" "§S" = true ∧
      processBatch (fun _ => "x§S") ["y"] = ["x§S"] ∧
      processBatch (fun _ => "x§S") ["y"] ≠ ["x§S\n"] := by
  refine ⟨by decide, by decide, by decide, by decide, by decide⟩

/-- The truncation fix as it actually behaves: a line break is appended
exactly when the corrected text ends with "§SEP" (the separator minus its
last character) or "§SE" (the separator minus its last two characters). -/
def truncationFixC8 (s : String) : String :=
  if pyEndsWith s "§SEP" || pyEndsWith s "§SE" then s ++ "\n" else s

/-- C8 amended: inside correct_subtitles' batch loop, the corrected
combined text gets a line break appended before the separator split
exactly when it ends with "§SEP" or "§SE"; other prefixes of the separator
(such as "§S" or "§") do not trigger the fix. -/
theorem processBatch_truncation_fix (correct : String → String)
    (batch : List String) :
    processBatch correct batch =
      pySplit separator_str
        (truncationFixC8 (correct (pyJoin separator_str batch))) := by
  have h1 : pySliceToNeg separator_str 1 = "§SEP" := by decide
  have h2 : pySliceToNeg separator_str 2 = "§SE" := by decide
  simp only [processBatch, truncationFixC8, h1, h2]

/-- The separator literal of `correct_subtitle_file`
(`spellchecker.py` lines 198, 224, 230). -/
def subtitle_separator : String := "\n===SUBTITLE_SEPARATOR===\n"

/-- The `for i, corrected_text in enumerate(corrected_texts)` loop of
`correct_subtitle_file` (`spellchecker.py` lines 233-246) for items
without an "ass" format tag: part `i` is stripped and written over item
`i` of the batch when `i < len(batch)`; other parts are ignored. -/
def updateBatchGo : List String → List String → Nat → List String
  | batch, [], _ => batch
  | batch, part :: rest, i =>
    if i < batch.length then updateBatchGo (batch.set i (pyStrip part)) rest (i + 1)
    else updateBatchGo batch rest (i + 1)

/-- Positional mapping of split corrected parts back onto a batch. -/
def updateBatchTexts (batch corrected_texts : List String) : List String :=
  updateBatchGo batch corrected_texts 0

theorem updateBatchGo_length (parts : List String) :
    ∀ (batch : List String) (i : Nat),
      (updateBatchGo batch parts i).length = batch.length := by
  induction parts with
  | nil => intro batch i; rfl
  | cons part rest ih =>
    intro batch i
    rw [updateBatchGo]
    split
    · rw [ih, List.length_set]
    · rw [ih]

theorem updateBatchGo_getElem_untouched (parts : List String) :
    ∀ (batch : List String) (i j : Nat), i + parts.length ≤ j →
      (updateBatchGo batch parts i)[j]? = batch[j]? := by
  induction parts with
  | nil => intro batch i j _; rfl
  | cons part rest ih =>
    intro batch i j hj
    rw [updateBatchGo]
    split
    · rw [ih _ (i + 1) j (by simp at hj; omega)]
      exact List.getElem?_set_ne (show i ≠ j by simp at hj; omega)
    · exact ih _ (i + 1) j (by simp at hj; omega)

/-- C9: positional mapping of the corrected parts back onto a batch is
truncation-safe: the updated batch has exactly as many items as before
(excess parts are dropped), and every trailing item whose index has no
corrected part keeps its pre-correction text.  Totality of
updateBatchTexts is the no-exception guarantee. -/
theorem updateBatchTexts_alignment (batch : List String)
    (corrected_combined : String) :
    (updateBatchTexts batch (pySplit subtitle_separator corrected_combined)).length =
        batch.length ∧
      ∀ i : Nat, (pySplit subtitle_separator corrected_combined).length ≤ i →
        (updateBatchTexts batch (pySplit subtitle_separator corrected_combined))[i]? =
          batch[i]? := by
  refine ⟨updateBatchGo_length _ batch 0, fun i hi => ?_⟩
  exact updateBatchGo_getElem_untouched _ batch 0 i (by omega)

theorem updateBatchTexts_alignment_witness :
    (pySplit subtitle_separator "X").length ≤ 1 ∧
      (updateBatchTexts ["a", "b", "c"] (pySplit subtitle_separator "X")).length = 3 ∧
      (updateBatchTexts ["a", "b", "c"] (pySplit subtitle_separator "X"))[1]? =
        (["a", "b", "c"] : List String)[1]? :=
  ⟨by decide, (updateBatchTexts_alignment ["a", "b", "c"] "X").1,
    (updateBatchTexts_alignment ["a", "b", "c"] "X").2 1 (by decide)⟩

/-- The fit test of the `while batch:` loop of correct_subtitle_file's
fixed-size branch (`spellchecker.py` lines 198-203): the batch texts
joined with the separator estimate within the budget. -/
def batchFits (max_tokens : Int) (b : List String) : Prop :=
  (count_tokens (pyJoin subtitle_separator b) : Int) ≤ max_tokens

instance (max_tokens : Int) (b : List String) : Decidable (batchFits max_tokens b) :=
  inferInstanceAs (Decidable (_ ≤ _))

/-- The `while batch:` shrink loop of `correct_subtitle_file`
(`spellchecker.py` lines 195-207): keep the batch once it fits or has one
item left, else retry with `batch[:-1]`.  Each iteration removes the last
item, so the loop is modelled by structural recursion on the reversed
batch; it appends at most one batch to `filtered_batches` (none when the
slice was empty). -/
def shrinkRev (max_tokens : Int) : List String → List (List String)
  | [] => []
  | x :: xs =>
    if batchFits max_tokens ((x :: xs).reverse) ∨ ((x :: xs).reverse).length = 1 then
      [(x :: xs).reverse]
    else shrinkRev max_tokens xs

/-- Shrinking one slice to its kept batch (zero or one batches). -/
def shrinkBatch (max_tokens : Int) (batch : List String) : List (List String) :=
  shrinkRev max_tokens batch.reverse

/-- Processing of one fixed-size slice by `correct_subtitle_file`
(`spellchecker.py` lines 186-246), with `self.correct_text` abstracted as
`correct` and items modelled by their text fields (no "ass" format tag).
The source mutates `subtitle_data` in place; since the kept batch is an
initial segment of its own slice and slices are disjoint and contiguous,
the mutation is modelled per slice: the kept prefix is positionally
updated and the removed tail is appended back unchanged.  The second
component records the combined text sent to the corrector. -/
def correctFileFixedChunk (correct : String → String) (max_tokens : Int)
    (chunk : List String) : List String × List String :=
  match shrinkBatch max_tokens chunk with
  | [] => (chunk, [])
  | kept :: _ =>
    let combined_text := pyJoin subtitle_separator kept
    let corrected_texts := pySplit subtitle_separator (correct combined_text)
    (updateBatchTexts kept corrected_texts ++ chunk.drop kept.length, [combined_text])

/-- The fixed-size (batch_size > 0) path of `correct_subtitle_file`:
final text of every subtitle item, paired with the list of combined texts
sent to the corrector, in order. -/
def correct_subtitle_file_fixed (correct : String → String) (max_tokens : Int)
    (batch_size : Nat) (subtitle_data : List String) : List String × List String :=
  ((((chunksOf batch_size subtitle_data).map
      fun c => (correctFileFixedChunk correct max_tokens c).1)).flatten,
   (((chunksOf batch_size subtitle_data).map
      fun c => (correctFileFixedChunk correct max_tokens c).2)).flatten)

theorem chunksOfGo_flatten {α : Type} (bs : Nat) (l : List α) :
    ∀ cur : List α, (chunksOfGo bs l cur).flatten = cur ++ l := by
  induction l with
  | nil => intro cur; cases cur <;> simp [chunksOfGo]
  | cons x xs ih =>
    intro cur
    rw [chunksOfGo]
    split
    · simp [ih]
    · simp [ih]

theorem chunksOfGo_ne_nil {α : Type} (bs : Nat) (l : List α) :
    ∀ cur : List α, ∀ c ∈ chunksOfGo bs l cur, c ≠ [] := by
  induction l with
  | nil =>
    intro cur c hc
    cases cur with
    | nil => simp [chunksOfGo] at hc
    | cons y ys =>
      simp [chunksOfGo] at hc
      subst hc
      simp
  | cons x xs ih =>
    intro cur c hc
    rw [chunksOfGo] at hc
    split at hc
    · rcases List.mem_cons.mp hc with hc | hc
      · subst hc; simp
      · exact ih [] c hc
    · exact ih (cur ++ [x]) c hc

/-- Characterization of the shrink loop on a reversed non-empty batch: it
keeps the prefix of length k of the original batch, where k is largest
with the joined prefix fitting the budget — or k = 1 when no longer prefix
fits — and every strictly longer prefix fails the fit test. -/
theorem shrinkRev_spec (max_tokens : Int) (r : List String) :
    r ≠ [] → ∃ k, 1 ≤ k ∧ k ≤ r.length ∧
      shrinkRev max_tokens r = [r.reverse.take k] ∧
      (batchFits max_tokens (r.reverse.take k) ∨ k = 1) ∧
      ∀ j, k < j → j ≤ r.length → ¬ batchFits max_tokens (r.reverse.take j) := by
  induction r with
  | nil => intro h; exact absurd rfl h
  | cons x xs ih =>
    intro _
    by_cases hguard :
        batchFits max_tokens ((x :: xs).reverse) ∨ ((x :: xs).reverse).length = 1
    · have heq : shrinkRev max_tokens (x :: xs) = [(x :: xs).reverse] := by
        rw [shrinkRev, if_pos hguard]
      have htakeall : (x :: xs).reverse.take (x :: xs).length = (x :: xs).reverse := by
        rw [← List.length_reverse, List.take_length]
      refine ⟨(x :: xs).length, by simp, le_refl _, ?_, ?_, ?_⟩
      · rw [heq, htakeall]
      · rcases hguard with hfit | hlen
        · left; rw [htakeall]; exact hfit
        · right; rw [List.length_reverse] at hlen; exact hlen
      · intro j hj1 hj2 _
        omega
    · have heq : shrinkRev max_tokens (x :: xs) = shrinkRev max_tokens xs := by
        rw [shrinkRev, if_neg hguard]
      push_neg at hguard
      obtain ⟨hnofit, hlen1⟩ := hguard
      have hxs : xs ≠ [] := by
        intro h
        subst h
        simp at hlen1
      obtain ⟨k, hk1, hk2, hkeq, hkfit, hkmax⟩ := ih hxs
      have htake : ∀ m, m ≤ xs.length →
          (x :: xs).reverse.take m = xs.reverse.take m := by
        intro m hm
        rw [List.reverse_cons]
        exact List.take_append_of_le_length (by simpa using hm)
      refine ⟨k, hk1, by simp only [List.length_cons]; omega, ?_, ?_, ?_⟩
      · rw [heq, hkeq, htake k hk2]
      · rcases hkfit with h | h
        · left; rw [htake k hk2]; exact h
        · right; exact h
      · intro j hj1 hj2
        by_cases hjle : j ≤ xs.length
        · rw [htake j hjle]
          exact hkmax j hj1 hjle
        · have hjeq : j = (x :: xs).length := by
            simp only [List.length_cons] at hj2 ⊢
            omega
          rw [hjeq, ← List.length_reverse, List.take_length]
          exact hnofit

/-- The property claim C10 asserts of the fixed item-count mode of
correct_subtitle_file: the slices partition the subtitle data; each slice
is shrunk by repeatedly removing its last item until the joined text fits
the budget or one item remains (the kept batch is the longest fitting
prefix, or a singleton, and no longer prefix fits); only the kept prefix's
joined text is sent to the corrector; and each removed item re-appears in
the output at its own position with its original, uncorrected text. -/
def C10Prop (correct : String → String) (max_tokens : Int) (batch_size : Nat)
    (subtitle_data : List String) : Prop :=
  (chunksOf batch_size subtitle_data).flatten = subtitle_data ∧
    ∀ ch ∈ chunksOf batch_size subtitle_data, ∃ k, 1 ≤ k ∧ k ≤ ch.length ∧
      shrinkBatch max_tokens ch = [ch.take k] ∧
      (batchFits max_tokens (ch.take k) ∨ k = 1) ∧
      (∀ j, k < j → j ≤ ch.length → ¬ batchFits max_tokens (ch.take j)) ∧
      (correctFileFixedChunk correct max_tokens ch).2 =
        [pyJoin subtitle_separator (ch.take k)] ∧
      (correctFileFixedChunk correct max_tokens ch).1.length = ch.length ∧
      ∀ i, k ≤ i → ((correctFileFixedChunk correct max_tokens ch).1)[i]? = ch[i]?

/-- C10: in fixed item-count batching mode (batch_size > 0) of
correct_subtitle_file, a batch whose joined text exceeds the token budget
is shrunk by repeatedly removing its last item until the joined text fits
or one item remains; the removed items belong to no other batch, their
texts are never part of a string sent to the corrector, and they are
written to the output with their original uncorrected text. -/
theorem correct_subtitle_file_fixed_shrink (correct : String → String)
    (max_tokens : Int) (batch_size : Nat) (subtitle_data : List String)
    (hbs : 0 < batch_size) :
    C10Prop correct max_tokens batch_size subtitle_data := by
  constructor
  · simpa using chunksOfGo_flatten batch_size subtitle_data []
  · intro c hc
    have hcne : c ≠ [] := chunksOfGo_ne_nil batch_size subtitle_data [] c hc
    have hrne : c.reverse ≠ [] := by simpa using hcne
    obtain ⟨k, hk1, hk2, hkeq, hkfit, hkmax⟩ := shrinkRev_spec max_tokens c.reverse hrne
    rw [List.reverse_reverse] at hkeq hkfit hkmax
    rw [List.length_reverse] at hk2 hkmax
    have hshr : shrinkBatch max_tokens c = [c.take k] := hkeq
    have hchunk : correctFileFixedChunk correct max_tokens c =
        (updateBatchTexts (c.take k)
            (pySplit subtitle_separator
              (correct (pyJoin subtitle_separator (c.take k)))) ++
          c.drop (c.take k).length,
         [pyJoin subtitle_separator (c.take k)]) := by
      rw [correctFileFixedChunk, hshr]
    have hlenA : (updateBatchTexts (c.take k)
        (pySplit subtitle_separator
          (correct (pyJoin subtitle_separator (c.take k))))).length = k := by
      rw [updateBatchTexts, updateBatchGo_length, List.length_take]
      exact Nat.min_eq_left hk2
    refine ⟨k, hk1, hk2, hshr, hkfit, hkmax, ?_, ?_, ?_⟩
    · rw [hchunk]
    · rw [hchunk]
      simp only [List.length_append, List.length_drop]
      rw [hlenA, List.length_take, Nat.min_eq_left hk2]
      omega
    · intro i hi
      rw [hchunk]
      simp only
      rw [List.getElem?_append_right (by rw [hlenA]; exact hi)]
      rw [hlenA, List.length_take, Nat.min_eq_left hk2, List.getElem?_drop]
      congr 1
      omega

theorem correct_subtitle_file_fixed_shrink_witness :
    0 < 2 ∧ C10Prop (fun s => s) 0 2 ["ab", "cd", "ef"] :=
  ⟨by decide,
    correct_subtitle_file_fixed_shrink (fun s => s) 0 2 ["ab", "cd", "ef"] (by decide)⟩
